import Mathlib

/-!
Verification of the Stock Ledger (inventory_system.py).

The source is a small Python module holding a global `stock_data` mapping
from item names to quantities, with operations `add_item`, `remove_item`,
`get_qty`, `check_low_items`, `load_data`, `save_data`.

Shallow embedding conventions:
- Python values are the inductive `PyVal` (None, bool, int, str, list, dict).
  Dicts are association lists with string keys, in insertion order, as Python
  dicts preserve insertion order; JSON object keys are strings.
- Python's `bool` is a subtype of `int` (`isinstance(True, int)` holds and
  `True + 1 == 2`), so `asInt` accepts both `int` and `bool`.
- Each operation is a pure function from the current `stock_data` value (and
  its arguments) to the new state, the list of logging calls it made, and an
  optional uncaught exception (`Option PyExn`); `none` means the Python
  function returned normally.  State is never rolled back by an exception:
  the result carries the state at the point the exception escaped.
- The file system is abstracted: `load_data` takes `Option String` (the file
  content, or `Option.none` when the path does not exist, which raises
  FileNotFoundError in Python); `save_data` takes a flag saying whether
  opening the file for writing succeeds (false models an OSError).
- `json.loads` / `json.dumps(..., indent=4)` are modelled by an executable
  JSON parser `jsonParse` and serializer `dumpsLedger` defined below.  The
  model covers null, booleans, integers, strings (with escape sequences),
  arrays and objects; JSON floats are not modelled (no claim involves them).
- The audit timestamp `datetime.now()` is an explicit `now : String`
  parameter of `add_item`.
-/

inductive PyVal where
  | none
  | bool (b : Bool)
  | int (n : Int)
  | str (s : String)
  | list (elems : List PyVal)
  | dict (entries : List (String × PyVal))
deriving Repr

/-- Uncaught Python exceptions that can escape an operation in this module. -/
inductive PyExn where
  | typeError
  | attributeError
deriving Repr, DecidableEq

/-- One call to the logging module, with its severity and message. -/
inductive LogEvent where
  | info (msg : String)
  | warning (msg : String)
  | error (msg : String)
deriving Repr, DecidableEq

/-- Python `isinstance(v, str)`. -/
def isStr : PyVal → Bool
  | .str _ => true
  | _ => false

/-- Python `isinstance(v, int)` together with the integer value: `bool` is a
subtype of `int` in Python, so `True` counts as `1` and `False` as `0`. -/
def asInt : PyVal → Option Int
  | .int n => some n
  | .bool b => some (if b then 1 else 0)
  | _ => Option.none

/-- Dictionary lookup `d[k]` / `d.get(k)` on a string-keyed dict. -/
def dlookup : List (String × PyVal) → String → Option PyVal
  | [], _ => Option.none
  | (k, v) :: t, key => if k = key then some v else dlookup t key

/-- Dictionary store `d[k] = v`: updates the existing binding in place
(keeping its position, as Python dicts do) or appends a new one. -/
def dictSet : List (String × PyVal) → String → PyVal → List (String × PyVal)
  | [], k, v => [(k, v)]
  | (k0, v0) :: t, k, v =>
      if k0 = k then (k, v) :: t else (k0, v0) :: dictSet t k v

/-- Dictionary deletion `del d[k]`. -/
def dictDel (d : List (String × PyVal)) (k : String) : List (String × PyVal) :=
  d.filter (fun p => p.1 ≠ k)

/-- Result of `add_item`: the new `stock_data`, the caller-supplied audit log
list after the call, the logging calls made, and an uncaught exception if one
escaped. -/
structure AddResult where
  stock : PyVal
  logs : List String
  reports : List LogEvent
  exn : Option PyExn
deriving Repr

/-- Result of a mutation (`remove_item`) or of `load_data`. -/
structure MutResult where
  stock : PyVal
  reports : List LogEvent
  exn : Option PyExn
deriving Repr

/-- Embedding of `add_item(item, qty, logs)`.  Mirrors the source: the type
check first (warning and return on failure), then the empty-name check
(silent return), then `stock_data[item] = stock_data.get(item, 0) + qty` and
the audit-log append.  A non-dict `stock_data` raises AttributeError at
`.get`; a non-integer stored value raises TypeError at `+`. -/
def add_item (stock : PyVal) (item qty : PyVal) (logs : List String)
    (now : String) : AddResult :=
  if isStr item ∧ (asInt qty).isSome then
    match item, asInt qty with
    | .str s, some n =>
        if s = "" then ⟨stock, logs, [], Option.none⟩
        else
          match stock with
          | .dict d =>
              match asInt ((dlookup d s).getD (.int 0)) with
              | some p =>
                  ⟨.dict (dictSet d s (.int (p + n))),
                    logs ++ [now ++ ": Added " ++ toString n ++ " of " ++ s],
                    [], Option.none⟩
              | Option.none => ⟨stock, logs, [], some .typeError⟩
          | _ => ⟨stock, logs, [], some .attributeError⟩
    | _, _ => ⟨stock, logs, [], some .typeError⟩
  else
    ⟨stock, logs,
      [.warning "Invalid types for item or qty. Skipping."], Option.none⟩

/-- Embedding of `remove_item(item, qty)`.  The `try` block evaluates
`stock_data[item]`, raising KeyError when the key is absent, which the
`except KeyError` turns into a warning; a present value is decremented
(TypeError on non-integer operands escapes, as only KeyError is caught), and
the key is deleted with an info message when the result is at most zero.
Indexing a non-dict `stock_data` with a string raises TypeError. -/
def remove_item (stock : PyVal) (item : String) (qty : PyVal) : MutResult :=
  match stock with
  | .dict d =>
      match dlookup d item with
      | Option.none =>
          ⟨stock,
            [.warning ("Attempted to remove non-existent item: " ++ item ++ ".")],
            Option.none⟩
      | some v =>
          match asInt v, asInt qty with
          | some pv, some qv =>
              if pv - qv ≤ 0 then
                ⟨.dict (dictDel d item),
                  [.info ("Item " ++ item ++ " stock reached zero and removed.")],
                  Option.none⟩
              else
                ⟨.dict (dictSet d item (.int (pv - qv))), [], Option.none⟩
          | _, _ => ⟨stock, [], some .typeError⟩
  | _ => ⟨stock, [], some .typeError⟩

/-- Embedding of `get_qty(item)`: `stock_data.get(item, 0)`.  Returns the
stored value (0 for unknown items); `.get` on a non-dict raises
AttributeError. -/
def get_qty (stock : PyVal) (item : String) : PyVal × Option PyExn :=
  match stock with
  | .dict d => ((dlookup d item).getD (.int 0), Option.none)
  | _ => (.none, some .attributeError)

/-- The loop body of `check_low_items`: collects keys whose value is below
the threshold; comparing a non-integer value with an integer raises
TypeError (`Option.none` result). -/
def lowLoop (threshold : Int) : List (String × PyVal) → Option (List String)
  | [] => some []
  | (k, v) :: t =>
      match asInt v with
      | some n =>
          if n < threshold then (lowLoop threshold t).map (fun r => k :: r)
          else lowLoop threshold t
      | Option.none => Option.none

/-- Embedding of `check_low_items(threshold=5)` (the default threshold is 5;
it is passed explicitly here).  Iterates over the dict and returns the names
of items strictly below the threshold, in insertion order.  Iterating and
indexing a non-dict `stock_data` raises TypeError. -/
def check_low_items (stock : PyVal) (threshold : Int) :
    List String × Option PyExn :=
  match stock with
  | .dict d =>
      match lowLoop threshold d with
      | some r => (r, Option.none)
      | Option.none => ([], some .typeError)
  | _ => ([], some .typeError)

/-- The initial value of the global `stock_data`: the empty dict. -/
def initStock : PyVal := .dict []

/-- Whether a stored value counts as below the threshold in the
`check_low_items` loop. -/
def isLow (threshold : Int) (v : PyVal) : Bool :=
  match asInt v with
  | some n => decide (n < threshold)
  | Option.none => false

/-- Calls to `add_item` and `remove_item`, for reasoning about sequences of
ledger mutations. -/
inductive LedgerOp where
  | add (item qty : PyVal) (now : String)
  | remove (item : String) (qty : PyVal)

/-- One mutation step: the new `stock_data` and the uncaught exception, if
any. -/
def stepOp (stock : PyVal) : LedgerOp → PyVal × Option PyExn
  | .add item qty now =>
      ((add_item stock item qty [] now).stock, (add_item stock item qty [] now).exn)
  | .remove item qty =>
      ((remove_item stock item qty).stock, (remove_item stock item qty).exn)

/-- Run a sequence of mutations from a starting state.  An uncaught exception
aborts the rest of the sequence (as it would abort the Python caller); the
state at that point is the final state. -/
def runOps (stock : PyVal) : List LedgerOp → PyVal
  | [] => stock
  | op :: t =>
      let r := stepOp stock op
      if r.2.isSome then r.1 else runOps r.1 t

/-- The data-model invariant: the state is a dict and every entry holds a
strictly positive integer quantity. -/
def PosEntries : PyVal → Prop
  | .dict d => ∀ p ∈ d, ∃ n : Int, p.2 = .int n ∧ 0 < n
  | _ => False

/-- An operation whose `add` (if it is one) carries a strictly positive
integer quantity; `remove` is unrestricted. -/
def AddPos : LedgerOp → Prop
  | .add _ qty _ => ∃ n : Int, qty = .int n ∧ 0 < n
  | .remove _ _ => True

/-! JSON model.  `dumpsLedger` embeds `json.dumps(stock_data, indent=4)` for
the ledger shape the program saves (a flat object of string keys and integer
values); `jsonParse` embeds `json.loads`.  The parser accepts null, booleans,
integers, strings with the standard escape sequences, arrays and objects with
arbitrary nesting; it rejects everything else (JSON floats are not modelled;
no claim involves them).  String escaping follows the JSON grammar: the
serializer escapes the quote, the backslash and control characters (CPython
writes short escapes for a few control characters and also escapes non-ASCII
characters by default; both spellings parse back to the same string, so the
round-trip behaviour is unchanged). -/

/-- Decimal digit character. -/
def digitCh : Nat → Char
  | 0 => '0'
  | 1 => '1'
  | 2 => '2'
  | 3 => '3'
  | 4 => '4'
  | 5 => '5'
  | 6 => '6'
  | 7 => '7'
  | 8 => '8'
  | _ => '9'

/-- Lowercase hexadecimal digit, as CPython emits in escape sequences. -/
def hexDigitCh : Nat → Char
  | 10 => 'a'
  | 11 => 'b'
  | 12 => 'c'
  | 13 => 'd'
  | 14 => 'e'
  | 15 => 'f'
  | n => digitCh n

/-- Numeric value of a hexadecimal digit character. -/
def hexVal (c : Char) : Option Nat :=
  if 48 ≤ c.toNat ∧ c.toNat ≤ 57 then some (c.toNat - 48)
  else if 97 ≤ c.toNat ∧ c.toNat ≤ 102 then some (c.toNat - 87)
  else if 65 ≤ c.toNat ∧ c.toNat ≤ 70 then some (c.toNat - 55)
  else Option.none

/-- JSON escaping of one string character. -/
def escapeChar (c : Char) : List Char :=
  if c = '"' then ['\\', '"']
  else if c = '\\' then ['\\', '\\']
  else if c.toNat < 32 then
    ['\\', 'u', '0', '0', hexDigitCh (c.toNat / 16), hexDigitCh (c.toNat % 16)]
  else [c]

/-- JSON escaping of a whole string body. -/
def escapeList : List Char → List Char
  | [] => []
  | c :: t => escapeChar c ++ escapeList t

/-- Decimal digits of a positive natural number, most significant first;
the fuel bounds the recursion depth and any fuel above `n` is enough. -/
def natChars : Nat → Nat → List Char
  | 0, _ => []
  | fuel + 1, n =>
      if n = 0 then [] else natChars fuel (n / 10) ++ [digitCh (n % 10)]

/-- Decimal digits of a natural number, most significant first. -/
def natDigits (n : Nat) : List Char :=
  if n = 0 then ['0'] else natChars (n + 1) n

/-- Decimal rendering of an integer, as `str(int)` produces. -/
def intChars (n : Int) : List Char :=
  if n < 0 then '-' :: natDigits n.natAbs else natDigits n.natAbs

/-- One serialized object member: `"key": value`. -/
def entryChars (k : String) (v : Int) : List Char :=
  '"' :: escapeList k.data ++ ('"' :: ':' :: ' ' :: intChars v)

/-- Serialized members separated by a comma, a newline and the 4-space
indent that `indent=4` produces. -/
def entriesChars : List (String × Int) → List Char
  | [] => []
  | (k, v) :: t =>
      entryChars k v ++
        (if t.isEmpty then []
         else ',' :: '\n' :: ' ' :: ' ' :: ' ' :: ' ' :: entriesChars t)

/-- Embedding of `json.dumps(d, indent=4)` on a flat string-to-integer dict:
the exact text `save_data` writes. -/
def dumpsLedger (l : List (String × Int)) : String :=
  match l with
  | [] => String.mk ['{', '}']
  | _ =>
      String.mk
        ('{' :: '\n' :: ' ' :: ' ' :: ' ' :: ' ' ::
          (entriesChars l ++ ['\n', '}']))

/-- JSON insignificant whitespace. -/
def isWs (c : Char) : Bool := c = ' ' ∨ c = '\n' ∨ c = '\t' ∨ c = '\r'

/-- Skip leading whitespace. -/
def skipWs : List Char → List Char
  | [] => []
  | c :: t => if isWs c then skipWs t else c :: t

/-- ASCII decimal digit test. -/
def isDigitCh (c : Char) : Bool := 48 ≤ c.toNat ∧ c.toNat ≤ 57

/-- Numeric value of a decimal digit character. -/
def digitVal (c : Char) : Nat := c.toNat - 48

/-- Consume a run of digits, accumulating their value. -/
def parseDigitsGo (acc : Nat) : List Char → Nat × List Char
  | [] => (acc, [])
  | c :: t =>
      if isDigitCh c then parseDigitsGo (acc * 10 + digitVal c) t
      else (acc, c :: t)

/-- Parse a natural number: at least one digit. -/
def parseNat : List Char → Option (Nat × List Char)
  | [] => Option.none
  | c :: t =>
      if isDigitCh c then some (parseDigitsGo (digitVal c) t) else Option.none

/-- Parse a JSON integer: an optional minus sign and digits. -/
def parseIntTok : List Char → Option (Int × List Char)
  | [] => Option.none
  | c :: t =>
      if c = '-' then (parseNat t).map (fun p => (-(p.1 : Int), p.2))
      else (parseNat (c :: t)).map (fun p => ((p.1 : Int), p.2))

/-- Parse a JSON string body after the opening quote, unescaping the
standard escape sequences, up to and including the closing quote. -/
def parseStrBody : List Char → Option (List Char × List Char)
  | [] => Option.none
  | c :: t =>
      if c = '"' then some ([], t)
      else if c = '\\' then
        match t with
        | [] => Option.none
        | e :: t2 =>
            if e = '"' then (parseStrBody t2).map (fun p => ('"' :: p.1, p.2))
            else if e = '\\' then
              (parseStrBody t2).map (fun p => ('\\' :: p.1, p.2))
            else if e = '/' then
              (parseStrBody t2).map (fun p => ('/' :: p.1, p.2))
            else if e = 'n' then
              (parseStrBody t2).map (fun p => ('\n' :: p.1, p.2))
            else if e = 't' then
              (parseStrBody t2).map (fun p => ('\t' :: p.1, p.2))
            else if e = 'r' then
              (parseStrBody t2).map (fun p => ('\r' :: p.1, p.2))
            else if e = 'b' then
              (parseStrBody t2).map (fun p => (Char.ofNat 8 :: p.1, p.2))
            else if e = 'f' then
              (parseStrBody t2).map (fun p => (Char.ofNat 12 :: p.1, p.2))
            else if e = 'u' then
              match t2 with
              | h1 :: h2 :: h3 :: h4 :: t3 =>
                  match hexVal h1, hexVal h2, hexVal h3, hexVal h4 with
                  | some a, some b, some c2, some d =>
                      (parseStrBody t3).map
                        (fun p =>
                          (Char.ofNat (((a * 16 + b) * 16 + c2) * 16 + d) ::
                            p.1, p.2))
                  | _, _, _, _ => Option.none
              | _ => Option.none
            else Option.none
      else (parseStrBody t).map (fun p => (c :: p.1, p.2))

/-- Build a dict from parsed members in order, later bindings overwriting
earlier ones, exactly as Python constructs a dict from a JSON object. -/
def dictInsertAll (acc : List (String × PyVal)) :
    List (String × PyVal) → List (String × PyVal)
  | [] => acc
  | (k, v) :: t => dictInsertAll (dictSet acc k v) t

mutual

/-- Parse one JSON value.  The fuel decreases at every recursive call; any
fuel above the input length is enough, since at least one input character is
consumed before each recursive call. -/
def parseVal : Nat → List Char → Option (PyVal × List Char)
  | 0, _ => Option.none
  | fuel + 1, l =>
      match skipWs l with
      | [] => Option.none
      | c :: t =>
          if c = '{' then
            match skipWs t with
            | [] => Option.none
            | c2 :: r =>
                if c2 = '}' then some (.dict [], r)
                else
                  (parseMembers fuel (c2 :: r)).map
                    (fun p => (.dict (dictInsertAll [] p.1), p.2))
          else if c = '[' then
            match skipWs t with
            | [] => Option.none
            | c2 :: r =>
                if c2 = ']' then some (.list [], r)
                else
                  (parseElems fuel (c2 :: r)).map
                    (fun p => (.list p.1, p.2))
          else if c = '"' then
            (parseStrBody t).map (fun p => (.str (String.mk p.1), p.2))
          else if c = 'n' then
            if t.take 3 = ['u', 'l', 'l'] then some (.none, t.drop 3)
            else Option.none
          else if c = 't' then
            if t.take 3 = ['r', 'u', 'e'] then some (.bool true, t.drop 3)
            else Option.none
          else if c = 'f' then
            if t.take 4 = ['a', 'l', 's', 'e'] then
              some (.bool false, t.drop 4)
            else Option.none
          else (parseIntTok (c :: t)).map (fun p => (.int p.1, p.2))

/-- Parse the members of a JSON object, positioned at the first key's
opening quote, through the closing brace. -/
def parseMembers :
    Nat → List Char → Option (List (String × PyVal) × List Char)
  | 0, _ => Option.none
  | fuel + 1, l =>
      match l with
      | [] => Option.none
      | c :: t =>
          if c = '"' then
            match parseStrBody t with
            | some (k, r1) =>
                match skipWs r1 with
                | [] => Option.none
                | c2 :: r2 =>
                    if c2 = ':' then
                      match parseVal fuel r2 with
                      | some (v, r3) =>
                          match skipWs r3 with
                          | [] => Option.none
                          | c3 :: r4 =>
                              if c3 = ',' then
                                (parseMembers fuel (skipWs r4)).map
                                  (fun p =>
                                    ((String.mk k, v) :: p.1, p.2))
                              else if c3 = '}' then
                                some ([(String.mk k, v)], r4)
                              else Option.none
                      | Option.none => Option.none
                    else Option.none
            | Option.none => Option.none
          else Option.none

/-- Parse the elements of a JSON array, positioned at the first element,
through the closing bracket. -/
def parseElems : Nat → List Char → Option (List PyVal × List Char)
  | 0, _ => Option.none
  | fuel + 1, l =>
      match parseVal fuel l with
      | some (v, r1) =>
          match skipWs r1 with
          | [] => Option.none
          | c2 :: r2 =>
              if c2 = ',' then
                (parseElems fuel (skipWs r2)).map (fun p => (v :: p.1, p.2))
              else if c2 = ']' then some ([v], r2)
              else Option.none
      | Option.none => Option.none

end

/-- Embedding of `json.loads`: parse one value and require that only
whitespace follows. -/
def jsonParse (s : String) : Option PyVal :=
  match parseVal (s.data.length + 1) s.data with
  | some (v, r) => if skipWs r = [] then some v else Option.none
  | Option.none => Option.none

/-- Embedding of `load_data(file)`: the file content is `Option.none` when
the path does not exist (FileNotFoundError, caught: warning, state kept) and
`some content` otherwise; a content that fails to parse raises
json.JSONDecodeError, caught: error report, state kept.  On success the
global `stock_data` is replaced by the parsed value verbatim. -/
def load_data (fileContent : Option String) (stock : PyVal) : MutResult :=
  match fileContent with
  | Option.none =>
      ⟨stock, [.warning "File not found. Starting with empty stock."],
        Option.none⟩
  | some content =>
      match jsonParse content with
      | some v => ⟨v, [.info "Data loaded successfully."], Option.none⟩
      | Option.none =>
          ⟨stock,
            [.error "Error decoding JSON from file. Content may be corrupted."],
            Option.none⟩

/-- Result of `save_data`: the content written (when the write succeeded),
the logging calls, and an uncaught exception if one escaped (none: OSError
is caught and everything the program stores is serializable). -/
structure SaveResult where
  content : Option String
  reports : List LogEvent
  exn : Option PyExn
deriving Repr

/-- Embedding of `save_data(file)` on a ledger of integer quantities: writes
`json.dumps(stock_data, indent=4)`; `writeOk = false` models an OSError from
`open`, which is caught and reported as an error, leaving the in-memory
state authoritative. -/
def save_data (ledger : List (String × Int)) (writeOk : Bool) : SaveResult :=
  if writeOk then
    ⟨some (dumpsLedger ledger), [.info "Data saved successfully."],
      Option.none⟩
  else ⟨Option.none, [.error "Failed to save data."], Option.none⟩

/-- The ledger as the PyVal dict the program holds in memory. -/
def pyLedger (l : List (String × Int)) : List (String × PyVal) :=
  l.map (fun p => (p.1, PyVal.int p.2))

section DictLemmas

theorem dlookup_dictSet_self (d : List (String × PyVal)) (k : String) (v : PyVal) :
    dlookup (dictSet d k v) k = some v := by
  induction d with
  | nil => simp [dictSet, dlookup]
  | cons p t ih =>
      obtain ⟨k0, v0⟩ := p
      by_cases h : k0 = k
      · simp [dictSet, h, dlookup]
      · simp [dictSet, h, dlookup, ih]

theorem dlookup_dictDel_self (d : List (String × PyVal)) (k : String) :
    dlookup (dictDel d k) k = Option.none := by
  induction d with
  | nil => simp [dictDel, dlookup]
  | cons p t ih =>
      obtain ⟨k0, v0⟩ := p
      by_cases h : k0 = k
      · simpa [dictDel, h] using ih
      · simpa [dictDel, h, dlookup] using ih

theorem mem_dictSet (d : List (String × PyVal)) (k : String) (v : PyVal)
    (q : String × PyVal) (hq : q ∈ dictSet d k v) : q = (k, v) ∨ q ∈ d := by
  induction d with
  | nil => simpa [dictSet] using hq
  | cons p t ih =>
      obtain ⟨k0, v0⟩ := p
      by_cases h : k0 = k
      · simp only [dictSet, if_pos h, List.mem_cons] at hq
        rcases hq with hq | hq
        · exact Or.inl hq
        · exact Or.inr (List.mem_cons_of_mem _ hq)
      · simp only [dictSet, if_neg h, List.mem_cons] at hq
        rcases hq with hq | hq
        · exact Or.inr (by simp [hq])
        · rcases ih hq with hq | hq
          · exact Or.inl hq
          · exact Or.inr (List.mem_cons_of_mem _ hq)

theorem mem_dictDel (d : List (String × PyVal)) (k : String)
    (q : String × PyVal) (hq : q ∈ dictDel d k) : q ∈ d :=
  List.mem_of_mem_filter hq

theorem dlookup_eq_some_iff_mem (d : List (String × PyVal))
    (hnd : (d.map Prod.fst).Nodup) (k : String) (v : PyVal) :
    dlookup d k = some v ↔ (k, v) ∈ d := by
  induction d with
  | nil => simp [dlookup]
  | cons p t ih =>
      obtain ⟨k0, v0⟩ := p
      simp only [List.map_cons, List.nodup_cons] at hnd
      obtain ⟨hk0, ht⟩ := hnd
      by_cases h : k0 = k
      · subst h
        simp only [dlookup, if_pos rfl, List.mem_cons]
        constructor
        · intro hv
          exact Or.inl (by simpa using congrArg (Prod.mk k0) hv.symm)
        · rintro (hv | hv)
          · simpa using congrArg Prod.snd hv.symm
          · exact absurd (List.mem_map_of_mem Prod.fst hv) (by simpa using hk0)
      · simp only [dlookup, if_neg h, List.mem_cons, ih ht]
        constructor
        · exact fun hv => Or.inr hv
        · rintro (hv | hv)
          · exact absurd (congrArg Prod.fst hv) (by simpa using fun e => h e.symm)
          · exact hv

end DictLemmas

section OpLemmas

@[simp] theorem asInt_int (n : Int) : asInt (.int n) = some n := rfl

@[simp] theorem isStr_str (s : String) : isStr (.str s) = true := rfl

/-- Core equation for a well-typed, successful add on a dict state. -/
theorem add_item_dict_eq (d : List (String × PyVal)) (s : String) (n p : Int)
    (logs : List String) (now : String) (hs : s ≠ "")
    (hp : asInt ((dlookup d s).getD (.int 0)) = some p) :
    add_item (.dict d) (.str s) (.int n) logs now =
      ⟨.dict (dictSet d s (.int (p + n))),
        logs ++ [now ++ ": Added " ++ toString n ++ " of " ++ s],
        [], Option.none⟩ := by
  unfold add_item
  simp [hs, hp]

/-- Core equation for a remove that drives the stored quantity to zero or
below: the key is deleted and an info event is reported. -/
theorem remove_item_nonpos_eq (d : List (String × PyVal)) (item : String)
    (qty v : PyVal) (pv qv : Int) (hv : dlookup d item = some v)
    (hpv : asInt v = some pv) (hqv : asInt qty = some qv)
    (hle : pv - qv ≤ 0) :
    remove_item (.dict d) item qty =
      ⟨.dict (dictDel d item),
        [.info ("Item " ++ item ++ " stock reached zero and removed.")],
        Option.none⟩ := by
  unfold remove_item
  simp [hv, hpv, hqv, hle]

end OpLemmas

/-- C3: for every non-empty string item and integer qty, on a dict state
whose entry for the item is an integer quantity (or absent, counting as 0),
add sets the entry to the previous quantity plus qty: no exception escapes,
the state is the dict with the updated binding, and get_qty observes the
sum. -/
theorem add_accumulates_quantity (d : List (String × PyVal)) (s : String)
    (n p : Int) (logs : List String) (now : String) (hs : s ≠ "")
    (hp : asInt ((dlookup d s).getD (.int 0)) = some p) :
    (add_item (.dict d) (.str s) (.int n) logs now).exn = Option.none ∧
    (add_item (.dict d) (.str s) (.int n) logs now).stock =
      .dict (dictSet d s (.int (p + n))) ∧
    (get_qty (add_item (.dict d) (.str s) (.int n) logs now).stock s).1 =
      .int (p + n) := by
  rw [add_item_dict_eq d s n p logs now hs hp]
  simp [get_qty, dlookup_dictSet_self]

/-- Witness for C3: on a ledger without "x", adding 5 gives get_qty 5, and a
second add of 5 gives 10. -/
theorem add_accumulates_quantity_witness :
    (get_qty (add_item (.dict []) (.str "x") (.int 5) [] "t").stock "x").1 =
      .int 5 ∧
    (get_qty
        (add_item (.dict [("x", .int 5)]) (.str "x") (.int 5) [] "t").stock
        "x").1 = .int 10 := by
  constructor
  · have h := add_accumulates_quantity [] "x" 5 0 [] "t" (by decide) (by rfl)
    simpa using h.2.2
  · have h :=
      add_accumulates_quantity [("x", .int 5)] "x" 5 5 [] "t" (by decide)
        (by rfl)
    simpa using h.2.2

/-- C4: for every item present in a dict state with an integer quantity and
every integer qty with decremented quantity at most 0, remove deletes the
key entirely (lookup afterwards finds nothing), reports an informational
event, raises nothing, and a subsequent get_qty returns 0. -/
theorem remove_deletes_on_nonpositive (d : List (String × PyVal))
    (item : String) (qty v : PyVal) (pv qv : Int)
    (hv : dlookup d item = some v) (hpv : asInt v = some pv)
    (hqv : asInt qty = some qv) (hle : pv - qv ≤ 0) :
    remove_item (.dict d) item qty =
      ⟨.dict (dictDel d item),
        [.info ("Item " ++ item ++ " stock reached zero and removed.")],
        Option.none⟩ ∧
    dlookup (dictDel d item) item = Option.none ∧
    (get_qty (remove_item (.dict d) item qty).stock item).1 = .int 0 := by
  have h := remove_item_nonpos_eq d item qty v pv qv hv hpv hqv hle
  refine ⟨h, dlookup_dictDel_self d item, ?_⟩
  rw [h]
  simp [get_qty, dlookup_dictDel_self]

/-- Witness for C4: removing the full stock of "x" deletes it and get_qty
then returns 0. -/
theorem remove_deletes_on_nonpositive_witness :
    remove_item (.dict [("x", .int 5)]) "x" (.int 5) =
      ⟨.dict [], [.info "Item x stock reached zero and removed."],
        Option.none⟩ ∧
    (get_qty (remove_item (.dict [("x", .int 5)]) "x" (.int 5)).stock "x").1 =
      .int 0 := by
  have h :=
    remove_deletes_on_nonpositive [("x", .int 5)] "x" (.int 5) (.int 5) 5 5
      (by rfl) (by rfl) (by rfl) (by decide)
  exact ⟨by simpa [dictDel] using h.1, h.2.2⟩

/-- Core equation for an add with invalid argument types: warning, no
exception, state and audit log unchanged. -/
theorem add_item_bad_types_eq (stock item qty : PyVal) (logs : List String)
    (now : String) (h : isStr item = false ∨ asInt qty = Option.none) :
    add_item stock item qty logs now =
      ⟨stock, logs, [.warning "Invalid types for item or qty. Skipping."],
        Option.none⟩ := by
  unfold add_item
  rcases h with h | h <;> simp [h]

/-- C5: for every call to add where the item is not a string or the qty is
not an integer, the operation reports exactly one warning, raises nothing,
and leaves the state (and the audit log) completely unchanged - for every
starting state, even a non-dict one. -/
theorem add_bad_types_noop (stock item qty : PyVal) (logs : List String)
    (now : String) (h : isStr item = false ∨ asInt qty = Option.none) :
    add_item stock item qty logs now =
      ⟨stock, logs, [.warning "Invalid types for item or qty. Skipping."],
        Option.none⟩ :=
  add_item_bad_types_eq stock item qty logs now h

/-- Witness for C5: the demonstration call add_item(123, "ten") is a no-op
with a warning. -/
theorem add_bad_types_noop_witness :
    add_item initStock (.int 123) (.str "ten") [] "t" =
      ⟨initStock, [], [.warning "Invalid types for item or qty. Skipping."],
        Option.none⟩ :=
  add_bad_types_noop initStock (.int 123) (.str "ten") [] "t"
    (Or.inl (by rfl))

/-- Core equation for a remove whose item is absent: the KeyError is caught
and turned into a warning, state unchanged. -/
theorem remove_item_missing_eq (d : List (String × PyVal)) (item : String)
    (qty : PyVal) (h : dlookup d item = Option.none) :
    remove_item (.dict d) item qty =
      ⟨.dict d,
        [.warning ("Attempted to remove non-existent item: " ++ item ++ ".")],
        Option.none⟩ := by
  unfold remove_item
  simp [h]

/-- C9: for every item name absent from a dict state and every qty value of
any type, remove reports a warning, raises nothing, and leaves the state
unchanged. -/
theorem remove_missing_noop (d : List (String × PyVal)) (item : String)
    (qty : PyVal) (h : dlookup d item = Option.none) :
    remove_item (.dict d) item qty =
      ⟨.dict d,
        [.warning ("Attempted to remove non-existent item: " ++ item ++ ".")],
        Option.none⟩ :=
  remove_item_missing_eq d item qty h

/-- Witness for C9: the demonstration call remove_item("orange", 1) on the
empty ledger warns and changes nothing. -/
theorem remove_missing_noop_witness :
    remove_item initStock "orange" (.int 1) =
      ⟨initStock,
        [.warning "Attempted to remove non-existent item: orange."],
        Option.none⟩ := by
  have h := remove_missing_noop [] "orange" (.int 1) (by rfl)
  simpa [initStock] using h

/-- On a dict whose values are all integers the low-stock loop finishes and
collects exactly the keys of the entries below the threshold, in order. -/
theorem lowLoop_eq_filter (threshold : Int) (d : List (String × PyVal))
    (h : ∀ p ∈ d, (asInt p.2).isSome) :
    lowLoop threshold d =
      some ((d.filter (fun p => isLow threshold p.2)).map Prod.fst) := by
  induction d with
  | nil => simp [lowLoop]
  | cons p t ih =>
      obtain ⟨k, v⟩ := p
      obtain ⟨n, hn⟩ := Option.isSome_iff_exists.mp (h (k, v) (by simp))
      have ht := ih (fun q hq => h q (List.mem_cons_of_mem _ hq))
      by_cases hlt : n < threshold
      · simp [lowLoop, hn, hlt, ht, isLow]
      · simp [lowLoop, hn, hlt, ht, isLow]

/-- C8: for every dict state whose values are all integers (with distinct
keys, as Python dicts have) and every threshold, check_low_items raises
nothing and returns exactly the item names whose quantity is strictly less
than the threshold; on the ledger a:3, b:10, c:4 with threshold 5 it
returns exactly a and c. -/
theorem check_low_items_spec :
    (∀ (d : List (String × PyVal)) (threshold : Int),
      (∀ p ∈ d, (asInt p.2).isSome) → (d.map Prod.fst).Nodup →
      (check_low_items (.dict d) threshold).2 = Option.none ∧
      ∀ item : String,
        item ∈ (check_low_items (.dict d) threshold).1 ↔
          ∃ (v : PyVal) (n : Int),
            dlookup d item = some v ∧ asInt v = some n ∧ n < threshold) ∧
    (check_low_items
        (.dict [("a", .int 3), ("b", .int 10), ("c", .int 4)]) 5).1 =
      ["a", "c"] := by
  constructor
  · intro d threshold h hnd
    have hl := lowLoop_eq_filter threshold d h
    constructor
    · simp [check_low_items, hl]
    · intro item
      simp only [check_low_items, hl]
      constructor
      · intro hitem
        simp only [List.mem_map, List.mem_filter] at hitem
        obtain ⟨⟨k, v⟩, ⟨hmem, hlow⟩, hk⟩ := hitem
        obtain ⟨n, hn⟩ := Option.isSome_iff_exists.mp (h (k, v) hmem)
        refine ⟨v, n, ?_, hn, ?_⟩
        · subst hk
          exact (dlookup_eq_some_iff_mem d hnd k v).mpr hmem
        · simpa [isLow, hn] using hlow
      · rintro ⟨v, n, hv, hn, hlt⟩
        have hmem := (dlookup_eq_some_iff_mem d hnd item v).mp hv
        simp only [List.mem_map, List.mem_filter]
        exact ⟨(item, v), ⟨hmem, by simp [isLow, hn, hlt]⟩, rfl⟩
  · rfl

/-- Witness for C8: on the ledger a:3, b:10, c:4 with threshold 5, a is
reported as low (its quantity 3 is below 5). -/
theorem check_low_items_spec_witness :
    "a" ∈ (check_low_items
        (.dict [("a", .int 3), ("b", .int 10), ("c", .int 4)]) 5).1 := by
  have h :=
    (check_low_items_spec.1 [("a", .int 3), ("b", .int 10), ("c", .int 4)] 5
      (by intro p hp; fin_cases hp <;> simp) (by simp)).2 "a"
  exact h.mpr ⟨.int 3, 3, by rfl, by rfl, by decide⟩

/-- A successful lookup yields an entry of the dict. -/
theorem dlookup_mem (d : List (String × PyVal)) (k : String) (v : PyVal)
    (h : dlookup d k = some v) : (k, v) ∈ d := by
  induction d with
  | nil => simp [dlookup] at h
  | cons p t ih =>
      obtain ⟨k0, v0⟩ := p
      by_cases hk : k0 = k
      · subst hk
        simp [dlookup] at h
        simp [h]
      · simp only [dlookup, if_neg hk] at h
        exact List.mem_cons_of_mem _ (ih h)

/-- Preservation of the data-model invariant by one mutation step whose add
(if it is one) carries a positive integer quantity. -/
theorem stepOp_preserves (stock : PyVal) (op : LedgerOp)
    (hinv : PosEntries stock) (hop : AddPos op) :
    PosEntries (stepOp stock op).1 := by
  obtain ⟨d, rfl⟩ : ∃ d, stock = .dict d := by
    cases stock <;>
      first
        | exact ⟨_, rfl⟩
        | exact absurd hinv (by simp [PosEntries])
  cases op with
  | add item qty now =>
      obtain ⟨n, rfl, hn⟩ := hop
      cases item with
      | str s =>
          by_cases hs : s = ""
          · simpa [stepOp, add_item, hs] using hinv
          · rcases hv : dlookup d s with _ | v
            · have heq := add_item_dict_eq d s n 0 [] now hs (by simp [hv])
              simp only [stepOp, heq]
              intro q hq
              rcases mem_dictSet d s (.int (0 + n)) q hq with hq | hq
              · exact ⟨0 + n, by simp [hq], by omega⟩
              · exact hinv q hq
            · obtain ⟨p, hp, hppos⟩ := hinv (s, v) (dlookup_mem d s v hv)
              have hvp : v = PyVal.int p := hp
              subst hvp
              have heq := add_item_dict_eq d s n p [] now hs (by simp [hv])
              simp only [stepOp, heq]
              intro q hq
              rcases mem_dictSet d s (.int (p + n)) q hq with hq | hq
              · exact ⟨p + n, by simp [hq], by omega⟩
              · exact hinv q hq
      | none =>
          simpa [stepOp, add_item_bad_types_eq (PyVal.dict d) PyVal.none
            (PyVal.int n) [] now (Or.inl rfl)] using hinv
      | bool b =>
          simpa [stepOp, add_item_bad_types_eq (PyVal.dict d) (PyVal.bool b)
            (PyVal.int n) [] now (Or.inl rfl)] using hinv
      | int m =>
          simpa [stepOp, add_item_bad_types_eq (PyVal.dict d) (PyVal.int m)
            (PyVal.int n) [] now (Or.inl rfl)] using hinv
      | list xs =>
          simpa [stepOp, add_item_bad_types_eq (PyVal.dict d) (PyVal.list xs)
            (PyVal.int n) [] now (Or.inl rfl)] using hinv
      | dict d2 =>
          simpa [stepOp, add_item_bad_types_eq (PyVal.dict d) (PyVal.dict d2)
            (PyVal.int n) [] now (Or.inl rfl)] using hinv
  | remove item qty =>
      rcases hv : dlookup d item with _ | v
      · simpa [stepOp, remove_item_missing_eq d item qty hv] using hinv
      · obtain ⟨p, hp, hppos⟩ := hinv (item, v) (dlookup_mem d item v hv)
        have hvp : v = PyVal.int p := hp
        subst hvp
        rcases hq : asInt qty with _ | qv
        · simp only [stepOp, remove_item, hv, asInt_int, hq]
          exact hinv
        · by_cases hle : p - qv ≤ 0
          · have heq :=
              remove_item_nonpos_eq d item qty (.int p) p qv hv rfl hq hle
            simp only [stepOp, heq]
            exact fun q hq2 => hinv q (mem_dictDel d item q hq2)
          · simp only [stepOp, remove_item, hv, asInt_int, hq, if_neg hle]
            intro q hq2
            rcases mem_dictSet d item (.int (p - qv)) q hq2 with hq2 | hq2
            · exact ⟨p - qv, by simp [hq2], by omega⟩
            · exact hinv q hq2

/-- Invariant preservation along a whole run of mutations. -/
theorem runOps_preserves (ops : List LedgerOp) (stock : PyVal)
    (hinv : PosEntries stock) (hops : ∀ op ∈ ops, AddPos op) :
    PosEntries (runOps stock ops) := by
  induction ops generalizing stock with
  | nil => simpa [runOps] using hinv
  | cons op t ih =>
      have h1 := stepOp_preserves stock op hinv (hops op (by simp))
      by_cases he : (stepOp stock op).2.isSome
      · simpa [runOps, he] using h1
      · simpa [runOps, he] using
          ih (stepOp stock op).1 h1 (fun o ho => hops o (List.mem_cons_of_mem _ ho))

/-- C1 (amended): for every sequence of add and remove calls starting from
the empty ledger in which every add carries a positive integer quantity,
every key present in the ledger afterwards has quantity > 0; and any remove
that drives a quantity to at most 0 deletes that key.  (An add with a
non-positive quantity can leave a key with quantity at most 0: add does not
prune, see the counterexample.) -/
theorem ledger_invariant_positive_adds :
    (∀ ops : List LedgerOp, (∀ op ∈ ops, AddPos op) →
      PosEntries (runOps initStock ops)) ∧
    (∀ (d : List (String × PyVal)) (item : String) (qty v : PyVal)
        (pv qv : Int),
      dlookup d item = some v → asInt v = some pv → asInt qty = some qv →
      pv - qv ≤ 0 →
      (remove_item (.dict d) item qty).stock = .dict (dictDel d item) ∧
      dlookup (dictDel d item) item = Option.none) := by
  constructor
  · intro ops hops
    exact runOps_preserves ops initStock
      (fun p hp => absurd hp (List.not_mem_nil p)) hops
  · intro d item qty v pv qv hv hpv hqv hle
    exact ⟨by rw [remove_item_nonpos_eq d item qty v pv qv hv hpv hqv hle],
      dlookup_dictDel_self d item⟩

/-- Witness for C1 (amended): after adding 5 of "x" and removing 2, every
surviving key has a positive quantity. -/
theorem ledger_invariant_positive_adds_witness :
    PosEntries (runOps initStock
      [LedgerOp.add (.str "x") (.int 5) "t", LedgerOp.remove "x" (.int 2)]) := by
  refine ledger_invariant_positive_adds.1 _ ?_
  intro op hop
  fin_cases hop
  · exact ⟨5, rfl, by decide⟩
  · trivial

/-- Counterexample to C1 as stated: a single add call with quantity -5 on
the empty ledger leaves the key "x" present with quantity -5, which is not
positive, and no deletion happens. -/
theorem ledger_invariant_counterexample :
    ¬ PosEntries (runOps initStock
      [LedgerOp.add (.str "x") (.int (-5)) "t"]) := by
  intro h
  have heq : runOps initStock [LedgerOp.add (.str "x") (.int (-5)) "t"] =
      .dict [("x", .int (-5))] := rfl
  rw [heq] at h
  obtain ⟨n, hn, hpos⟩ := h ("x", .int (-5)) (by simp)
  simp only [PyVal.int.injEq] at hn
  omega

section JsonLemmas

/-- The input does not begin with a decimal digit (used to delimit parsed
numbers). -/
def nonDigitStart : List Char → Prop
  | [] => True
  | c :: _ => isDigitCh c = false

@[simp] theorem nonDigitStart_nil : nonDigitStart [] := trivial

@[simp] theorem nonDigitStart_cons (c : Char) (t : List Char) :
    nonDigitStart (c :: t) ↔ isDigitCh c = false := Iff.rfl

@[simp] theorem stringMk_data (s : String) : String.mk s.data = s := rfl

theorem skipWs_not_ws (c : Char) (t : List Char) (h : isWs c = false) :
    skipWs (c :: t) = c :: t := by
  simp [skipWs, h]

theorem skipWs_ws (c : Char) (t : List Char) (h : isWs c = true) :
    skipWs (c :: t) = skipWs t := by
  simp [skipWs, h]

theorem hexVal_hexDigitCh : ∀ n < 16, hexVal (hexDigitCh n) = some n := by
  decide

theorem digitVal_digitCh : ∀ d < 10, digitVal (digitCh d) = d := by decide

theorem isDigitCh_digitCh : ∀ d < 10, isDigitCh (digitCh d) = true := by
  decide

/-- One-step equations for `parseStrBody` (its recursion is compiled in a
form that does not reduce on a symbolic tail, so these are derived once and
used as rewrite rules). -/
theorem parseStrBody_quote (t : List Char) :
    parseStrBody ('"' :: t) = some ([], t) := by
  rw [parseStrBody.eq_def]
  simp

theorem parseStrBody_esc_quote (t : List Char) :
    parseStrBody ('\\' :: '"' :: t) =
      (parseStrBody t).map (fun p => ('"' :: p.1, p.2)) := by
  rw [parseStrBody.eq_def]
  simp

theorem parseStrBody_esc_backslash (t : List Char) :
    parseStrBody ('\\' :: '\\' :: t) =
      (parseStrBody t).map (fun p => ('\\' :: p.1, p.2)) := by
  rw [parseStrBody.eq_def]
  simp

theorem parseStrBody_esc_u (h1 h2 h3 h4 : Char) (t : List Char)
    (a b c d : Nat) (e1 : hexVal h1 = some a) (e2 : hexVal h2 = some b)
    (e3 : hexVal h3 = some c) (e4 : hexVal h4 = some d) :
    parseStrBody ('\\' :: 'u' :: h1 :: h2 :: h3 :: h4 :: t) =
      (parseStrBody t).map
        (fun p =>
          (Char.ofNat (((a * 16 + b) * 16 + c) * 16 + d) :: p.1, p.2)) := by
  rw [parseStrBody.eq_def]
  simp [e1, e2, e3, e4]

theorem parseStrBody_other (c : Char) (t : List Char) (h1 : ¬c = '"')
    (h2 : ¬c = '\\') :
    parseStrBody (c :: t) =
      (parseStrBody t).map (fun p => (c :: p.1, p.2)) := by
  rw [parseStrBody.eq_def]
  simp [h1, h2]

/-- Parsing undoes escaping: the parser consumes an escaped string body plus
the closing quote and returns the original characters and the suffix. -/
theorem parseStrBody_escapeList (s rest : List Char) :
    parseStrBody (escapeList s ++ ('"' :: rest)) = some (s, rest) := by
  induction s with
  | nil => simp [escapeList, parseStrBody_quote]
  | cons c cs ih =>
      by_cases hq : c = '"'
      · subst hq
        simp [escapeList, escapeChar, parseStrBody_esc_quote, ih]
      · by_cases hb : c = '\\'
        · subst hb
          simp [escapeList, escapeChar, parseStrBody_esc_backslash, ih]
        · by_cases hc : c.toNat < 32
          · have hv1 := hexVal_hexDigitCh (c.toNat / 16) (by omega)
            have hv2 := hexVal_hexDigitCh (c.toNat % 16) (by omega)
            have hv0 : hexVal '0' = some 0 := rfl
            have hchar :
                Char.ofNat (c.toNat / 16 * 16 + c.toNat % 16) = c := by
              have harith : c.toNat / 16 * 16 + c.toNat % 16 = c.toNat := by
                omega
              rw [harith, Char.ofNat_toNat]
            have hu := parseStrBody_esc_u '0' '0' (hexDigitCh (c.toNat / 16))
              (hexDigitCh (c.toNat % 16)) (escapeList cs ++ ('"' :: rest))
              0 0 (c.toNat / 16) (c.toNat % 16) hv0 hv0 hv1 hv2
            simp [escapeList, escapeChar, hq, hb, hc, hu, hchar, ih]
          · simp [escapeList, escapeChar, hq, hb, hc,
              parseStrBody_other c _ hq hb, ih]

theorem natChars_all_digits (fuel : Nat) :
    ∀ (n : Nat), ∀ c ∈ natChars fuel n, isDigitCh c = true := by
  induction fuel with
  | zero => intro n c hc; simp [natChars] at hc
  | succ f ih =>
      intro n c hc
      by_cases hn : n = 0
      · simp [natChars, hn] at hc
      · simp only [natChars, if_neg hn, List.mem_append] at hc
        rcases hc with hc | hc
        · exact ih _ c hc
        · have hc2 : c = digitCh (n % 10) := by simpa using hc
          subst hc2
          exact isDigitCh_digitCh (n % 10) (Nat.mod_lt _ (by omega))

theorem natChars_foldl (fuel : Nat) :
    ∀ (n acc : Nat), n < fuel →
      List.foldl (fun a c => a * 10 + digitVal c) acc (natChars fuel n) =
        acc * 10 ^ (natChars fuel n).length + n := by
  induction fuel with
  | zero => intro n acc h; exact absurd h (Nat.not_lt_zero n)
  | succ f ih =>
      intro n acc h
      by_cases hn : n = 0
      · simp [natChars, hn]
      · have hdiv : n / 10 < f := by
          have h1 : n / 10 < n := Nat.div_lt_self (by omega) (by omega)
          omega
        simp only [natChars, if_neg hn, List.foldl_append, List.length_append,
          List.length_cons, List.length_nil, List.foldl_cons, List.foldl_nil]
        rw [ih (n / 10) acc hdiv,
          digitVal_digitCh (n % 10) (Nat.mod_lt _ (by omega))]
        calc (acc * 10 ^ (natChars f (n / 10)).length + n / 10) * 10 + n % 10
            = acc * (10 ^ (natChars f (n / 10)).length * 10) +
                (n / 10 * 10 + n % 10) := by ring
          _ = acc * 10 ^ ((natChars f (n / 10)).length + (0 + 1)) + n := by
              have he : (natChars f (n / 10)).length + (0 + 1) =
                  (natChars f (n / 10)).length + 1 := by omega
              rw [he, pow_succ]
              congr 1
              omega

theorem parseDigitsGo_digits (ds : List Char) :
    ∀ (acc : Nat) (rest : List Char), (∀ c ∈ ds, isDigitCh c = true) →
      nonDigitStart rest →
      parseDigitsGo acc (ds ++ rest) =
        (List.foldl (fun a c => a * 10 + digitVal c) acc ds, rest) := by
  induction ds with
  | nil =>
      intro acc rest _ hrest
      cases rest with
      | nil => simp [parseDigitsGo]
      | cons c t =>
          simp only [nonDigitStart_cons] at hrest
          simp [parseDigitsGo, hrest]
  | cons c t ih =>
      intro acc rest hds hrest
      simp only [List.cons_append, List.foldl_cons]
      rw [parseDigitsGo, if_pos (hds c (by simp))]
      exact ih _ rest (fun x hx => hds x (by simp [hx])) hrest

theorem natDigits_all_digits (n : Nat) :
    ∀ c ∈ natDigits n, isDigitCh c = true := by
  intro c hc
  by_cases hn : n = 0
  · simp [natDigits, hn] at hc
    subst hc
    decide
  · rw [natDigits, if_neg hn] at hc
    exact natChars_all_digits (n + 1) n c hc

theorem natDigits_ne_nil (n : Nat) : natDigits n ≠ [] := by
  by_cases hn : n = 0
  · simp [natDigits, hn]
  · rw [natDigits, if_neg hn]
    intro hnil
    have hfold := natChars_foldl (n + 1) n 0 (by omega)
    rw [hnil] at hfold
    simp at hfold
    omega

theorem natDigits_foldl (n : Nat) :
    List.foldl (fun a c => a * 10 + digitVal c) 0 (natDigits n) = n := by
  by_cases hn : n = 0
  · simp [natDigits, hn, digitVal]
  · rw [natDigits, if_neg hn]
    have hfold := natChars_foldl (n + 1) n 0 (by omega)
    simpa using hfold

theorem parseNat_natDigits (n : Nat) (rest : List Char)
    (hrest : nonDigitStart rest) :
    parseNat (natDigits n ++ rest) = some (n, rest) := by
  rcases hcs : natDigits n with _ | ⟨c0, cs⟩
  · exact absurd hcs (natDigits_ne_nil n)
  · have hd0 : isDigitCh c0 = true :=
      natDigits_all_digits n c0 (by rw [hcs]; simp)
    have hds : ∀ c ∈ cs, isDigitCh c = true :=
      fun c hc => natDigits_all_digits n c (by rw [hcs]; simp [hc])
    simp only [List.cons_append]
    rw [parseNat, if_pos hd0, parseDigitsGo_digits cs (digitVal c0) rest hds
      hrest]
    have hfold : List.foldl (fun a c => a * 10 + digitVal c) (digitVal c0)
        cs = n := by
      have h0 := natDigits_foldl n
      rw [hcs] at h0
      simpa using h0
    rw [hfold]

/-- A decimal digit character is none of the JSON structural characters and
is not whitespace. -/
theorem isDigitCh_facts (c : Char) (h : isDigitCh c = true) :
    c ≠ '-' ∧ c ≠ '{' ∧ c ≠ '[' ∧ c ≠ '"' ∧ c ≠ 'n' ∧ c ≠ 't' ∧ c ≠ 'f' ∧
      isWs c = false := by
  have hn : 48 ≤ c.toNat ∧ c.toNat ≤ 57 := by simpa [isDigitCh] using h
  refine ⟨?_, ?_, ?_, ?_, ?_, ?_, ?_, ?_⟩
  · rintro rfl; exact absurd hn (by decide)
  · rintro rfl; exact absurd hn (by decide)
  · rintro rfl; exact absurd hn (by decide)
  · rintro rfl; exact absurd hn (by decide)
  · rintro rfl; exact absurd hn (by decide)
  · rintro rfl; exact absurd hn (by decide)
  · rintro rfl; exact absurd hn (by decide)
  · have h1 : c ≠ ' ' := by rintro rfl; exact absurd hn (by decide)
    have h2 : c ≠ '\n' := by rintro rfl; exact absurd hn (by decide)
    have h3 : c ≠ '\t' := by rintro rfl; exact absurd hn (by decide)
    have h4 : c ≠ '\r' := by rintro rfl; exact absurd hn (by decide)
    simp [isWs, h1, h2, h3, h4]

theorem parseIntTok_intChars (v : Int) (rest : List Char)
    (hrest : nonDigitStart rest) :
    parseIntTok (intChars v ++ rest) = some (v, rest) := by
  by_cases hv : v < 0
  · rw [intChars, if_pos hv]
    simp only [List.cons_append]
    rw [parseIntTok, if_pos rfl, parseNat_natDigits v.natAbs rest hrest]
    have hva : -(v.natAbs : Int) = v := by omega
    simp [hva]
    rw [abs_of_neg hv]
    ring
  · rw [intChars, if_neg hv]
    rcases hcs : natDigits v.natAbs with _ | ⟨c0, cs⟩
    · exact absurd hcs (natDigits_ne_nil v.natAbs)
    · have hd0 : isDigitCh c0 = true :=
        natDigits_all_digits v.natAbs c0 (by rw [hcs]; simp)
    
      have hne : ¬c0 = '-' := (isDigitCh_facts c0 hd0).1
      simp only [List.cons_append]
      rw [parseIntTok, if_neg hne]
      have hpn := parseNat_natDigits v.natAbs rest hrest
      rw [hcs] at hpn
      simp only [List.cons_append] at hpn
      rw [hpn]
      have hva : (v.natAbs : Int) = v := by omega
      simp [hva]

/-- The first character of a serialized integer, with the facts needed to
route the parser to the number branch. -/
theorem intChars_head_facts (v : Int) :
    ∃ c0 cs, intChars v = c0 :: cs ∧ isWs c0 = false ∧ ¬c0 = '{' ∧
      ¬c0 = '[' ∧ ¬c0 = '"' ∧ ¬c0 = 'n' ∧ ¬c0 = 't' ∧ ¬c0 = 'f' := by
  by_cases hv : v < 0
  · refine ⟨'-', natDigits v.natAbs, by rw [intChars, if_pos hv], ?_, ?_, ?_,
      ?_, ?_, ?_, ?_⟩ <;> decide
  · rcases hcs : natDigits v.natAbs with _ | ⟨c0, cs⟩
    · exact absurd hcs (natDigits_ne_nil v.natAbs)
    · have hd0 : isDigitCh c0 = true :=
        natDigits_all_digits v.natAbs c0 (by rw [hcs]; simp)
      obtain ⟨_, hbr, hbk, hqu, hn, ht, hf, hws⟩ := isDigitCh_facts c0 hd0
      exact ⟨c0, cs, by rw [intChars, if_neg hv, hcs], hws, hbr, hbk, hqu,
        hn, ht, hf⟩

/-- The parser returns the integer when the whitespace-stripped input is a
serialized integer followed by a non-digit. -/
theorem parseVal_int_skip (f : Nat) (l rest : List Char) (v : Int)
    (hskip : skipWs l = intChars v ++ rest) (hrest : nonDigitStart rest) :
    parseVal (f + 1) l = some (.int v, rest) := by
  obtain ⟨c0, cs, hc, hws, h1, h2, h3, h4, h5, h6⟩ := intChars_head_facts v
  rw [hc, List.cons_append] at hskip
  rw [parseVal.eq_def]
  simp only [hskip, h1, h2, h3, h4, h5, h6, if_false]
  rw [← List.cons_append, ← hc, parseIntTok_intChars v rest hrest]
  rfl

/-- One-step equation for `parseMembers` at an opening quote whose string
body parses. -/
theorem parseMembers_step (f : Nat) (t k r1 : List Char)
    (hk : parseStrBody t = some (k, r1)) :
    parseMembers (f + 1) ('"' :: t) =
      match skipWs r1 with
      | [] => Option.none
      | c2 :: r2 =>
          if c2 = ':' then
            match parseVal f r2 with
            | some (v, r3) =>
                match skipWs r3 with
                | [] => Option.none
                | c3 :: r4 =>
                    if c3 = ',' then
                      (parseMembers f (skipWs r4)).map
                        (fun p => ((String.mk k, v) :: p.1, p.2))
                    else if c3 = '}' then some ([(String.mk k, v)], r4)
                    else Option.none
            | Option.none => Option.none
          else Option.none := by
  rw [parseMembers.eq_def]
  simp [hk]

/-- The serialized members of a non-empty ledger start with a quote. -/
theorem entriesChars_head (l : List (String × Int)) (h : l ≠ []) :
    ∃ X, entriesChars l = '"' :: X := by
  cases l with
  | nil => exact absurd rfl h
  | cons kv t =>
      obtain ⟨k, v⟩ := kv
      refine ⟨escapeList k.data ++ ('"' :: ':' :: ' ' :: intChars v) ++
        (if t.isEmpty then []
         else ',' :: '\n' :: ' ' :: ' ' :: ' ' :: ' ' :: entriesChars t), ?_⟩
      simp [entriesChars, entryChars]

/-- Parsing the serialized members of a non-empty ledger consumes them
together with the closing newline and brace, and returns the ledger. -/
theorem parseMembers_entries (l : List (String × Int)) :
    ∀ (rest : List Char) (f : Nat), l ≠ [] → l.length ≤ f →
      parseMembers (f + 1) (entriesChars l ++ ('\n' :: '}' :: rest)) =
        some (pyLedger l, rest) := by
  induction l with
  | nil => intro rest f h _; exact absurd rfl h
  | cons kv t ih =>
      obtain ⟨k, v⟩ := kv
      intro rest f _ hlen
      cases f with
      | zero => simp at hlen
      | succ f2 =>
          obtain ⟨c0, cs, hc, hws, _, _, _, _, _, _⟩ := intChars_head_facts v
          by_cases ht : t = []
          · subst ht
            have hbody : parseStrBody
                (escapeList k.data ++
                  ('"' :: (':' :: ' ' :: (intChars v ++ ('\n' :: '}' :: rest))))) =
                some (k.data, ':' :: ' ' :: (intChars v ++ ('\n' :: '}' :: rest))) :=
              parseStrBody_escapeList k.data _
            have hshape :
                entriesChars [(k, v)] ++ ('\n' :: '}' :: rest) =
                  '"' :: (escapeList k.data ++
                    ('"' :: (':' :: ' ' :: (intChars v ++ ('\n' :: '}' :: rest))))) := by
              simp [entriesChars, entryChars]
            rw [hshape, parseMembers_step (f2 + 1) _ _ _ hbody]
            have hcolon : skipWs (':' :: ' ' :: (intChars v ++ ('\n' :: '}' :: rest))) =
                ':' :: ' ' :: (intChars v ++ ('\n' :: '}' :: rest)) :=
              skipWs_not_ws _ _ (by decide)
            have hskipint : skipWs (' ' :: (intChars v ++ ('\n' :: '}' :: rest))) =
                intChars v ++ ('\n' :: '}' :: rest) := by
              rw [skipWs_ws _ _ (by decide), hc, List.cons_append,
                skipWs_not_ws _ _ hws, ← List.cons_append, ← hc]
            have hval := parseVal_int_skip f2
              (' ' :: (intChars v ++ ('\n' :: '}' :: rest)))
              ('\n' :: '}' :: rest) v hskipint (by simp; decide)
            have hsep : skipWs ('\n' :: '}' :: rest) = '}' :: rest := by
              rw [skipWs_ws _ _ (by decide), skipWs_not_ws _ _ (by decide)]
            rw [hcolon]
            simp only [if_pos rfl, hval, hsep]
            simp [pyLedger]
          · obtain ⟨X, hXeq⟩ := entriesChars_head t ht
            have hbody : parseStrBody
                (escapeList k.data ++
                  ('"' :: (':' :: ' ' :: (intChars v ++
                    (',' :: '\n' :: ' ' :: ' ' :: ' ' :: ' ' ::
                      (entriesChars t ++ ('\n' :: '}' :: rest))))))) =
                some (k.data, ':' :: ' ' :: (intChars v ++
                  (',' :: '\n' :: ' ' :: ' ' :: ' ' :: ' ' ::
                    (entriesChars t ++ ('\n' :: '}' :: rest))))) :=
              parseStrBody_escapeList k.data _
            have hshape :
                entriesChars ((k, v) :: t) ++ ('\n' :: '}' :: rest) =
                  '"' :: (escapeList k.data ++
                    ('"' :: (':' :: ' ' :: (intChars v ++
                      (',' :: '\n' :: ' ' :: ' ' :: ' ' :: ' ' ::
                        (entriesChars t ++ ('\n' :: '}' :: rest))))))) := by
              simp [entriesChars, entryChars, ht]
            rw [hshape, parseMembers_step (f2 + 1) _ _ _ hbody]
            have hcolon : skipWs (':' :: ' ' :: (intChars v ++
                (',' :: '\n' :: ' ' :: ' ' :: ' ' :: ' ' ::
                  (entriesChars t ++ ('\n' :: '}' :: rest))))) =
                ':' :: ' ' :: (intChars v ++
                  (',' :: '\n' :: ' ' :: ' ' :: ' ' :: ' ' ::
                    (entriesChars t ++ ('\n' :: '}' :: rest)))) :=
              skipWs_not_ws _ _ (by decide)
            have hskipint : skipWs (' ' :: (intChars v ++
                (',' :: '\n' :: ' ' :: ' ' :: ' ' :: ' ' ::
                  (entriesChars t ++ ('\n' :: '}' :: rest))))) =
                intChars v ++
                  (',' :: '\n' :: ' ' :: ' ' :: ' ' :: ' ' ::
                    (entriesChars t ++ ('\n' :: '}' :: rest))) := by
              rw [skipWs_ws _ _ (by decide), hc, List.cons_append,
                skipWs_not_ws _ _ hws, ← List.cons_append, ← hc]
            have hval := parseVal_int_skip f2
              (' ' :: (intChars v ++
                (',' :: '\n' :: ' ' :: ' ' :: ' ' :: ' ' ::
                  (entriesChars t ++ ('\n' :: '}' :: rest)))))
              (',' :: '\n' :: ' ' :: ' ' :: ' ' :: ' ' ::
                (entriesChars t ++ ('\n' :: '}' :: rest))) v hskipint
              (by simp; decide)
            have hsep : skipWs (',' :: '\n' :: ' ' :: ' ' :: ' ' :: ' ' ::
                (entriesChars t ++ ('\n' :: '}' :: rest))) =
                ',' :: '\n' :: ' ' :: ' ' :: ' ' :: ' ' ::
                  (entriesChars t ++ ('\n' :: '}' :: rest)) :=
              skipWs_not_ws _ _ (by decide)
            have hskipnext : skipWs ('\n' :: ' ' :: ' ' :: ' ' :: ' ' ::
                (entriesChars t ++ ('\n' :: '}' :: rest))) =
                entriesChars t ++ ('\n' :: '}' :: rest) := by
              rw [skipWs_ws _ _ (by decide), skipWs_ws _ _ (by decide),
                skipWs_ws _ _ (by decide), skipWs_ws _ _ (by decide),
                skipWs_ws _ _ (by decide), hXeq, List.cons_append,
                skipWs_not_ws _ _ (by decide), ← List.cons_append, ← hXeq]
            have hrec := ih rest f2 ht (by simp at hlen; omega)
            rw [hcolon]
            simp only [if_pos rfl, hval, hsep]
            simp [hskipnext, hrec, pyLedger]

/-- The serialization is at least as long as the number of entries, so the
parser fuel drawn from the input length suffices. -/
theorem entriesChars_length (l : List (String × Int)) :
    l.length ≤ (entriesChars l).length := by
  induction l with
  | nil => simp [entriesChars]
  | cons kv t ih =>
      obtain ⟨k, v⟩ := kv
      by_cases ht : t = []
      · subst ht
        simp [entriesChars, entryChars]
      · simp [entriesChars, entryChars, ht]
        omega

theorem dictSet_append (acc : List (String × PyVal)) (k : String) (v : PyVal)
    (h : ∀ p ∈ acc, p.1 ≠ k) : dictSet acc k v = acc ++ [(k, v)] := by
  induction acc with
  | nil => simp [dictSet]
  | cons q t ih =>
      obtain ⟨k0, v0⟩ := q
      have hk0 : k0 ≠ k := h (k0, v0) (by simp)
      simp [dictSet, hk0, ih (fun p hp => h p (by simp [hp]))]

theorem dictInsertAll_append (l : List (String × PyVal)) :
    ∀ acc, (l.map Prod.fst).Nodup →
      (∀ p ∈ acc, ∀ q ∈ l, p.1 ≠ q.1) →
      dictInsertAll acc l = acc ++ l := by
  induction l with
  | nil => intro acc _ _; simp [dictInsertAll]
  | cons q t ih =>
      obtain ⟨k, v⟩ := q
      intro acc hnd hdisj
      simp only [List.map_cons, List.nodup_cons] at hnd
      obtain ⟨hk, hnd⟩ := hnd
      simp only [dictInsertAll]
      rw [dictSet_append acc k v
        (fun p hp => hdisj p hp (k, v) (by simp))]
      rw [ih (acc ++ [(k, v)]) hnd ?_]
      · simp
      · intro p hp q hq
        rcases List.mem_append.mp hp with hp | hp
        · exact hdisj p hp q (by simp [hq])
        · have hpk : p = (k, v) := by simpa using hp
          subst hpk
          intro he
          have hkq : k = q.1 := he
          exact hk (by rw [hkq]; exact List.mem_map_of_mem Prod.fst hq)

/-- Building a Python dict from members with distinct keys keeps them
verbatim. -/
theorem dictInsertAll_nil (l : List (String × PyVal))
    (hnd : (l.map Prod.fst).Nodup) : dictInsertAll [] l = l := by
  simpa using dictInsertAll_append l [] hnd (by simp)

theorem pyLedger_keys (l : List (String × Int)) :
    (pyLedger l).map Prod.fst = l.map Prod.fst := by
  simp [pyLedger, List.map_map]

/-- The central round trip: parsing the exact text `json.dumps(., indent=4)`
produces for a ledger gives back that ledger as a Python dict. -/
theorem jsonParse_dumpsLedger (l : List (String × Int)) :
    jsonParse (dumpsLedger l) =
      some (.dict (dictInsertAll [] (pyLedger l))) := by
  cases l with
  | nil => rfl
  | cons kv t =>
      obtain ⟨k, v⟩ := kv
      obtain ⟨X, hXeq⟩ := entriesChars_head ((k, v) :: t) (by simp)
      have hdata : (dumpsLedger ((k, v) :: t)).data =
          '{' :: '\n' :: ' ' :: ' ' :: ' ' :: ' ' ::
            (entriesChars ((k, v) :: t) ++ ('\n' :: '}' :: [])) := by
        simp [dumpsLedger]
      have hlen : (dumpsLedger ((k, v) :: t)).data.length =
          (entriesChars ((k, v) :: t)).length + 8 := by
        rw [hdata]
        simp
      have hskip1 : skipWs ('\n' :: ' ' :: ' ' :: ' ' :: ' ' ::
          (entriesChars ((k, v) :: t) ++ ('\n' :: '}' :: []))) =
          entriesChars ((k, v) :: t) ++ ('\n' :: '}' :: []) := by
        rw [skipWs_ws _ _ (by decide), skipWs_ws _ _ (by decide),
          skipWs_ws _ _ (by decide), skipWs_ws _ _ (by decide),
          skipWs_ws _ _ (by decide), hXeq, List.cons_append,
          skipWs_not_ws _ _ (by decide), ← List.cons_append, ← hXeq]
      have hmem := parseMembers_entries ((k, v) :: t) []
        ((entriesChars ((k, v) :: t)).length + 7) (by simp)
        (le_trans (entriesChars_length _) (by omega))
      rw [jsonParse, hlen, hdata]
      rw [parseVal.eq_def]
      rw [show (entriesChars ((k, v) :: t)).length + 8 + 1 =
        ((entriesChars ((k, v) :: t)).length + 8) + 1 from rfl]
      simp only [skipWs_not_ws '{' _ (by decide)]
      simp only [hskip1]
      rw [hXeq]
      simp only [List.cons_append, if_pos rfl,
        show (('"' : Char) = '}') = False by simp, if_false]
      rw [← List.cons_append, ← hXeq]
      rw [show (entriesChars ((k, v) :: t)).length + 8 =
        ((entriesChars ((k, v) :: t)).length + 7) + 1 from rfl]
      rw [hmem]
      rfl

/-- C7: for every ledger mapping string item names to integer quantities
(with the distinct keys a Python dict guarantees) and every run where the
save succeeds, loading the written content reproduces a ledger mapping
identical to the one that was saved, whatever the prior in-memory state
was. -/
theorem save_load_round_trip (l : List (String × Int)) (prior : PyVal)
    (content : String) (hnd : (l.map Prod.fst).Nodup)
    (hsave : (save_data l true).content = some content) :
    load_data (some content) prior =
      ⟨.dict (pyLedger l), [.info "Data loaded successfully."],
        Option.none⟩ := by
  have hc : content = dumpsLedger l := by
    simpa [save_data] using hsave.symm
  subst hc
  have hp := jsonParse_dumpsLedger l
  rw [dictInsertAll_nil (pyLedger l) (by rw [pyLedger_keys]; exact hnd)] at hp
  simp [load_data, hp]

/-- Witness for C7: saving the ledger a:3, b:10 and loading the written text
gives back exactly that mapping. -/
theorem save_load_round_trip_witness :
    load_data (some (dumpsLedger [("a", 3), ("b", 10)])) (.dict []) =
      ⟨.dict [("a", .int 3), ("b", .int 10)],
        [.info "Data loaded successfully."], Option.none⟩ := by
  have h := save_load_round_trip [("a", 3), ("b", 10)] (.dict [])
    (dumpsLedger [("a", 3), ("b", 10)]) (by simp) rfl
  simpa [pyLedger] using h

/-- C6: load is atomic on failure.  A missing path leaves the state exactly
as it was (so empty if never populated) with a warning; syntactically
invalid content leaves the state exactly as it was with an error report;
neither case raises. -/
theorem load_failure_atomic :
    (∀ stock : PyVal,
      load_data Option.none stock =
        ⟨stock, [.warning "File not found. Starting with empty stock."],
          Option.none⟩) ∧
    (∀ (stock : PyVal) (content : String), jsonParse content = Option.none →
      load_data (some content) stock =
        ⟨stock,
          [.error "Error decoding JSON from file. Content may be corrupted."],
          Option.none⟩) := by
  constructor
  · intro stock
    rfl
  · intro stock content h
    simp [load_data, h]

/-- Witness for C6: loading a file holding text that is not JSON keeps the
prior one-entry ledger and reports an error. -/
theorem load_failure_atomic_witness :
    load_data (some "not json") (.dict [("a", .int 1)]) =
      ⟨.dict [("a", .int 1)],
        [.error "Error decoding JSON from file. Content may be corrupted."],
        Option.none⟩ :=
  load_failure_atomic.2 (.dict [("a", .int 1)]) "not json" rfl

/-- C10: load validates nothing beyond JSON syntax: the file content
"[1, 2]" is valid JSON but not an object of positive integer quantities,
and load replaces the whole ledger with the parsed list verbatim, leaving a
state that violates the data-model invariant. -/
theorem load_no_validation :
    load_data (some "[1, 2]") initStock =
      ⟨.list [.int 1, .int 2], [.info "Data loaded successfully."],
        Option.none⟩ ∧
    ¬PosEntries (load_data (some "[1, 2]") initStock).stock := by
  constructor
  · rfl
  · intro h
    exact h

/-- Counterexample to C2 as stated: remove_item with the item present and a
string quantity evaluates 10 - "three", raising a TypeError that only the
KeyError handler does not catch, so it escapes to the caller. -/
theorem unhandled_type_error_counterexample :
    (remove_item (.dict [("apple", .int 10)]) "apple" (.str "three")).exn =
      some PyExn.typeError := rfl

/-- C2 (amended): the failure modes the module anticipates are all handled
without an exception escaping - bad argument types in add (no-op plus
warning), a missing key in remove (no-op plus warning), a missing or
syntactically corrupt file in load (state kept, diagnostic reported), and a
write failure in save (error reported) - but remove with a non-integer qty
on a present item raises an uncaught TypeError (see the counterexample), so
not every bad-argument-type input is converted into a diagnostic. -/
theorem handled_failure_modes :
    (∀ (stock item qty : PyVal) (logs : List String) (now : String),
      isStr item = false ∨ asInt qty = Option.none →
      (add_item stock item qty logs now).exn = Option.none ∧
      (add_item stock item qty logs now).stock = stock) ∧
    (∀ (d : List (String × PyVal)) (item : String) (qty : PyVal),
      dlookup d item = Option.none →
      (remove_item (.dict d) item qty).exn = Option.none ∧
      (remove_item (.dict d) item qty).stock = .dict d) ∧
    (∀ stock : PyVal,
      (load_data Option.none stock).exn = Option.none ∧
      (load_data Option.none stock).stock = stock) ∧
    (∀ (stock : PyVal) (content : String),
      (load_data (some content) stock).exn = Option.none ∧
      (jsonParse content = Option.none →
        (load_data (some content) stock).stock = stock)) ∧
    (∀ (l : List (String × Int)) (writeOk : Bool),
      (save_data l writeOk).exn = Option.none ∧
      (writeOk = false →
        (save_data l writeOk).reports = [.error "Failed to save data."])) := by
  refine ⟨?_, ?_, ?_, ?_, ?_⟩
  · intro stock item qty logs now h
    rw [add_item_bad_types_eq stock item qty logs now h]
    exact ⟨rfl, rfl⟩
  · intro d item qty h
    rw [remove_item_missing_eq d item qty h]
    exact ⟨rfl, rfl⟩
  · intro stock
    exact ⟨rfl, rfl⟩
  · intro stock content
    constructor
    · rcases hj : jsonParse content with _ | v <;> simp [load_data, hj]
    · intro h
      simp [load_data, h]
  · intro l writeOk
    constructor
    · cases writeOk <;> rfl
    · intro h
      subst h
      rfl

/-- Witness for C2 (amended): the demonstration remove of a missing item
returns without an exception. -/
theorem handled_failure_modes_witness :
    (remove_item (.dict []) "orange" (.int 1)).exn = Option.none :=
  (handled_failure_modes.2.1 [] "orange" (.int 1) (by rfl)).1
